import Mathlib

/-!
Verification of the Brush Tag Selector docker
(`brush_tag_selector_docker.py`) against its specification.

The development shallowly embeds the parts of the plugin the claims are
about:

* `FlowLayout._doLayout` — the flow-wrapping layout algorithm.  Qt's
  `QRect.right()` returns `x() + width() - 1` (documented Qt behaviour),
  which the embedding reproduces in `QRect.right`.  Python's truthiness
  test `and lineHeight` is embedded as `lineHeight ≠ 0`.
* `FlowLayout.itemAt` / `FlowLayout.takeAt` — bounds-guarded list access.
* `_sync_tags_from_krita` / `_rebuild_buttons` — the flat-text mirror
  file: writing one label per line, and reading it back with Python's
  `l.strip()` filter.  Strings are embedded as `List Char`.
-/

namespace BrushTagSelector

/-- Qt rectangle: origin `(x, y)` and size `(w, h)`, integer coordinates. -/
structure QRect where
  x : Int
  y : Int
  w : Int
  h : Int
deriving DecidableEq, Repr

/-- Qt's `QRect.right()`: for historical reasons it is `x + width - 1`,
not `x + width`. -/
def QRect.right (r : QRect) : Int := r.x + r.w - 1

/-- A layout item: its size hint (`sizeHint().width()/height()`) and its
current committed geometry (mutated by `setGeometry`). -/
structure LayoutItem where
  hintW : Int
  hintH : Int
  geom : QRect
deriving DecidableEq, Repr

/-- One iteration of the `_doLayout` loop body on the cursor state
`(x, y, lineHeight)` for an item of size `(w, h)`:
returns the position the item is placed at, and the next cursor state.
The wrap guard is `x + w > rect.right() and lineHeight` (Python truthiness:
`lineHeight ≠ 0`); on wrap the cursor moves to `(rect.x, y + lineHeight)`
and `lineHeight` resets to `0` before being maxed with `h`. -/
def layoutStep (rect : QRect) (x y lineHeight w h : Int) :
    (Int × Int) × (Int × Int × Int) :=
  if x + w > rect.right ∧ lineHeight ≠ 0 then
    ((rect.x, y + lineHeight), (rect.x + w, y + lineHeight, max 0 h))
  else
    ((x, y), (x + w, y, max lineHeight h))

/-- The loop of `FlowLayout._doLayout`, threading the cursor state.
Returns the value `y + lineHeight - rect.y()` computed after the loop,
together with the item list (with geometry committed when
`testOnly = false`, untouched when `testOnly = true`). -/
def doLayoutGo (rect : QRect) (testOnly : Bool) :
    Int → Int → Int → List LayoutItem → Int × List LayoutItem
  | _, y, lineHeight, [] => (y + lineHeight - rect.y, [])
  | x, y, lineHeight, item :: rest =>
    let s := layoutStep rect x y lineHeight item.hintW item.hintH
    let item' := if testOnly then item else
      { item with geom := ⟨s.1.1, s.1.2, item.hintW, item.hintH⟩ }
    let r := doLayoutGo rect testOnly s.2.1 s.2.2.1 s.2.2.2 rest
    (r.1, item' :: r.2)

/-- `FlowLayout._doLayout(rect, testOnly)`: starts the cursor at
`(rect.x(), rect.y())` with `lineHeight = 0`. -/
def doLayout (rect : QRect) (testOnly : Bool) (items : List LayoutItem) :
    Int × List LayoutItem :=
  doLayoutGo rect testOnly rect.x rect.y 0 items

/-- Build a fresh item list from a list of `(width, height)` size hints
(initial geometry irrelevant, as in a newly created widget). -/
def mkItems (sizes : List (Int × Int)) : List LayoutItem :=
  sizes.map fun s => ⟨s.1, s.2, ⟨0, 0, 0, 0⟩⟩

/-- The positions `_doLayout` commits (commit mode, `testOnly = false`)
for items with the given size hints, in item order. -/
def layoutPositions (rect : QRect) (sizes : List (Int × Int)) :
    List (Int × Int) :=
  (doLayout rect false (mkItems sizes)).2.map fun it => (it.geom.x, it.geom.y)

/-- The total height `_doLayout` returns for items with the given size
hints. -/
def layoutHeight (rect : QRect) (testOnly : Bool)
    (sizes : List (Int × Int)) : Int :=
  (doLayout rect testOnly (mkItems sizes)).1

/-! ### Loop trace (for the wrap-guard invariant)

`layoutTrace` records, at the start of each iteration of the `_doLayout`
loop, the cursor state together with the positions of the items already
placed. -/

/-- The observable state at the start of one `_doLayout` loop iteration:
cursor `(x, y)`, accumulated `lineHeight`, and the positions of the items
placed by the previous iterations. -/
structure TraceEntry where
  x : Int
  y : Int
  lineHeight : Int
  placed : List (Int × Int)
deriving DecidableEq, Repr

/-- The per-iteration trace of the `_doLayout` loop: one entry per item,
taken just before the wrap guard of that iteration runs. -/
def loopTrace (rect : QRect) :
    Int → Int → Int → List (Int × Int) → List (Int × Int) → List TraceEntry
  | _, _, _, _, [] => []
  | x, y, lineHeight, placed, (w, hh) :: rest =>
    let s := layoutStep rect x y lineHeight w hh
    ⟨x, y, lineHeight, placed⟩ ::
      loopTrace rect s.2.1 s.2.2.1 s.2.2.2 (placed ++ [s.1]) rest

/-- The `_doLayout` loop trace from the initial state
`(rect.x(), rect.y(), 0)` with no item placed yet. -/
def layoutTrace (rect : QRect) (sizes : List (Int × Int)) : List TraceEntry :=
  loopTrace rect rect.x rect.y 0 [] sizes

/-! ### Claim-side layout descriptions

For the spec-versus-code comparison of the placement rule, a second
definition follows the words of the specification (not the source):
`claimPlace` is the rule exactly as the spec states it (an item stays on
the current row if and only if `x + width` does not exceed
`originX + W`).  `claimPlaceAmended` is the rule amended to what the code
does: the inclusive Qt right edge `originX + W - 1` and the
non-empty-row guard `lineHeight ≠ 0`. -/

/-- The placement rule in the spec's words: an item is kept on the current
row exactly when the running x-offset plus its width does not exceed the
container's right edge `originX + W`; otherwise it goes to `originX` on a
new row at `y + lineHeight`. -/
def claimPlace (originX W : Int) :
    Int → Int → Int → List (Int × Int) → List (Int × Int)
  | _, _, _, [] => []
  | x, y, lineHeight, (w, hh) :: rest =>
    if x + w ≤ originX + W then
      (x, y) :: claimPlace originX W (x + w) y (max lineHeight hh) rest
    else
      (originX, y + lineHeight) ::
        claimPlace originX W (originX + w) (y + lineHeight) hh rest

/-- The placement rule amended to the code's behaviour: an item is kept on
the current row exactly when `x + width` does not exceed Qt's inclusive
right edge `originX + W - 1`, or the current row is still empty
(`lineHeight = 0`); otherwise it goes to `originX` on a new row at
`y + lineHeight`. -/
def claimPlaceAmended (originX W : Int) :
    Int → Int → Int → List (Int × Int) → List (Int × Int)
  | _, _, _, [] => []
  | x, y, lineHeight, (w, hh) :: rest =>
    if x + w ≤ originX + W - 1 ∨ lineHeight = 0 then
      (x, y) :: claimPlaceAmended originX W (x + w) y (max lineHeight hh) rest
    else
      (originX, y + lineHeight) ::
        claimPlaceAmended originX W (originX + w) (y + lineHeight) (max 0 hh) rest

/-! ### `itemAt` and `takeAt` -/

/-- `FlowLayout.itemAt(i)`:
`self.itemList[i] if 0 <= i < len(self.itemList) else None`. -/
def itemAt {α : Type} (itemList : List α) (i : Int) : Option α :=
  if h : 0 ≤ i ∧ i < itemList.length then
    some (itemList.get ⟨i.toNat, by omega⟩)
  else none

/-- `FlowLayout.takeAt(i)`:
`self.itemList.pop(i) if 0 <= i < len(self.itemList) else None`;
`pop(i)` returns the `i`-th element and leaves the list without it. -/
def takeAt {α : Type} (itemList : List α) (i : Int) : Option α × List α :=
  if h : 0 ≤ i ∧ i < itemList.length then
    (some (itemList.get ⟨i.toNat, by omega⟩), itemList.eraseIdx i.toNat)
  else (none, itemList)

/-! ### The tags mirror file

Labels and file contents are `List Char`.  `_sync_tags_from_krita` writes
`t + "\n"` for each tag; `_rebuild_buttons` iterates the file's lines and
keeps `l.strip()` for each line whose stripped form is non-empty. -/

/-- The code points Python's `str.isspace()` accepts (CPython's Unicode
whitespace table): tab through carriage return, the information
separators, space, next line, no-break space, ogham space mark, the
en-quad..hair-space range, line and paragraph separators, narrow no-break
space, medium mathematical space, ideographic space. -/
def pyWhitespaceCodes : List Nat :=
  [0x09, 0x0a, 0x0b, 0x0c, 0x0d, 0x1c, 0x1d, 0x1e, 0x1f, 0x20, 0x85, 0xa0,
   0x1680, 0x2000, 0x2001, 0x2002, 0x2003, 0x2004, 0x2005, 0x2006, 0x2007,
   0x2008, 0x2009, 0x200a, 0x2028, 0x2029, 0x202f, 0x205f, 0x3000]

/-- The whitespace Python's `str.strip()` removes: every character whose
code point is Unicode whitespace (`str.isspace()`), not only the ASCII
ones. -/
def pyIsSpace (c : Char) : Bool :=
  pyWhitespaceCodes.contains c.toNat

/-- Python `l.strip()`: drop leading and trailing whitespace. -/
def pyStrip (l : List Char) : List Char :=
  ((l.dropWhile pyIsSpace).reverse.dropWhile pyIsSpace).reverse

/-- Split a character sequence at every newline; like Python's
`s.split` on a newline, the result has one more chunk than there are
newline characters. -/
def splitNl : List Char → List (List Char)
  | [] => [[]]
  | c :: cs =>
    if c = '\n' then [] :: splitNl cs
    else
      match splitNl cs with
      | [] => [[c]]
      | l :: ls => (c :: l) :: ls

/-- Python's universal-newlines translation, performed by text-mode
reading with the default `newline=None`: a `"\r\n"` pair and a lone
`"\r"` are both read as `"\n"`. -/
def univNewlines : List Char → List Char
  | [] => []
  | [c] => if c = '\r' then ['\n'] else [c]
  | c :: c2 :: cs =>
    if c = '\r' then
      if c2 = '\n' then '\n' :: univNewlines cs
      else '\n' :: univNewlines (c2 :: cs)
    else c :: univNewlines (c2 :: cs)

/-- The lines Python's text-mode file iteration (`for l in f`) yields:
line terminators are `"\n"`, `"\r"` and `"\r\n"` (universal newlines),
normalized to `"\n"`; every chunk before a terminator keeps its trailing
newline; a non-empty final chunk (file not ending in a terminator) is
yielded without one; a trailing empty chunk is not a line. -/
def fileLines (s : List Char) : List (List Char) :=
  let parts := splitNl (univNewlines s)
  parts.dropLast.map (fun l => l ++ ['\n']) ++
    (match parts.getLast? with
     | some [] => []
     | some l => [l]
     | none => [])

/-- The read side of `_rebuild_buttons`:
`tags = [l.strip() for l in f if l.strip()]` (a line is kept when its
stripped form is non-empty, and it is the stripped form that is kept). -/
def readTags (s : List Char) : List (List Char) :=
  ((fileLines s).map pyStrip).filter fun t => !t.isEmpty

/-- The write side of `_sync_tags_from_krita`: `f.write(t + "\n")` for
each tag, in order. -/
def writeTagsFile (tags : List (List Char)) : List Char :=
  (tags.map fun t => t ++ ['\n']).flatten

/-- The outcome of reading the mirror file in `_rebuild_buttons`: the file
may be missing (`os.path.exists` is false), the read may raise (caught by
the `except` clause), or it yields the file's contents. -/
inductive FileOutcome where
  | missing : FileOutcome
  | readError : String → FileOutcome
  | contents : List Char → FileOutcome

/-- `BrushTagSelectorDocker._rebuild_buttons`: the previous buttons are
always removed first (`self.buttons.clear()` — `prevButtons` never
survives); a missing file returns with no buttons, a read error is logged
and returns with no buttons, otherwise one button per tag read from the
file is created. -/
def rebuildButtons (prevButtons : List (List Char)) (file : FileOutcome) :
    List (List Char) :=
  match file with
  | FileOutcome.missing => []
  | FileOutcome.readError _ => []
  | FileOutcome.contents s => readTags s

/-! ## Helper lemmas -/

/-- The returned height of the `_doLayout` loop does not depend on
`testOnly`, from any cursor state. -/
lemma doLayoutGo_fst_testOnly (rect : QRect) (items : List LayoutItem) :
    ∀ x y lh : Int,
      (doLayoutGo rect true x y lh items).1 =
        (doLayoutGo rect false x y lh items).1 := by
  induction items with
  | nil => intro x y lh; rfl
  | cons item rest ih =>
    intro x y lh
    simp only [doLayoutGo]
    exact ih _ _ _

/-- In measure mode the `_doLayout` loop returns the item list unchanged,
from any cursor state. -/
lemma doLayoutGo_measure_snd (rect : QRect) (items : List LayoutItem) :
    ∀ x y lh : Int, (doLayoutGo rect true x y lh items).2 = items := by
  induction items with
  | nil => intro x y lh; rfl
  | cons item rest ih =>
    intro x y lh
    simp only [doLayoutGo, if_true]
    rw [ih]

/-- The positions committed by the `_doLayout` loop are exactly those of
the amended placement rule (Qt inclusive right edge, empty-row guard),
from any cursor state. -/
lemma doLayoutGo_commit_positions (rect : QRect) (items : List LayoutItem) :
    ∀ x y lh : Int,
      (doLayoutGo rect false x y lh items).2.map
          (fun it => (it.geom.x, it.geom.y)) =
        claimPlaceAmended rect.x rect.w x y lh
          (items.map fun it => (it.hintW, it.hintH)) := by
  induction items with
  | nil => intro x y lh; rfl
  | cons item rest ih =>
    intro x y lh
    by_cases hc : x + item.hintW > rect.right ∧ lh ≠ 0
    · have hc' : ¬(x + item.hintW ≤ rect.x + rect.w - 1 ∨ lh = 0) := by
        simp only [QRect.right] at hc
        omega
      simp only [doLayoutGo, layoutStep, if_pos hc, List.map_cons,
        claimPlaceAmended, if_neg hc', Bool.false_eq_true, if_false]
      rw [ih]
    · have hc' : x + item.hintW ≤ rect.x + rect.w - 1 ∨ lh = 0 := by
        simp only [QRect.right] at hc
        omega
      simp only [doLayoutGo, layoutStep, if_neg hc, List.map_cons,
        claimPlaceAmended, if_pos hc', Bool.false_eq_true, if_false]
      rw [ih]

/-- The size hints of a freshly built item list are the given sizes. -/
lemma mkItems_hints (sizes : List (Int × Int)) :
    (mkItems sizes).map (fun it => (it.hintW, it.hintH)) = sizes := by
  induction sizes with
  | nil => rfl
  | cons s rest ih =>
    simp only [mkItems, List.map_cons] at ih ⊢
    rw [ih]

/-- The committed positions of `_doLayout` coincide with the amended
placement rule started at the container origin. -/
lemma layoutPositions_eq_claimPlaceAmended (rect : QRect)
    (sizes : List (Int × Int)) :
    layoutPositions rect sizes =
      claimPlaceAmended rect.x rect.w rect.x rect.y 0 sizes := by
  have h := doLayoutGo_commit_positions rect (mkItems sizes) rect.x rect.y 0
  rw [mkItems_hints] at h
  exact h

/-- Weakening the head of a `≤`-chain. -/
lemma chain_le_head_mono {a b : Int} {L : List Int} (hab : a ≤ b)
    (h : List.Chain' (· ≤ ·) (b :: L)) : List.Chain' (· ≤ ·) (a :: L) := by
  cases L with
  | nil => simp
  | cons c L' =>
    rw [List.chain'_cons] at h ⊢
    exact ⟨le_trans hab h.1, h.2⟩

/-- When every remaining width fits on the current row (the cursor plus
the total remaining width stays within the inclusive right edge), the
amended rule keeps everything on row `y` with non-decreasing x-offsets. -/
lemma claimPlaceAmended_single_row (originX W : Int) :
    ∀ (sizes : List (Int × Int)) (x y lh : Int),
      (∀ s ∈ sizes, 0 ≤ s.1) →
      x + (sizes.map Prod.fst).sum ≤ originX + W - 1 →
      (∀ p ∈ claimPlaceAmended originX W x y lh sizes, p.2 = y) ∧
      List.Chain' (· ≤ ·)
        (x :: (claimPlaceAmended originX W x y lh sizes).map Prod.fst) := by
  intro sizes
  induction sizes with
  | nil => intro x y lh _ _; exact ⟨by simp [claimPlaceAmended], by simp [claimPlaceAmended]⟩
  | cons s rest ih =>
    intro x y lh hw hsum
    obtain ⟨w, hh⟩ := s
    have hw0 : 0 ≤ w := hw (w, hh) (List.mem_cons_self _ _)
    have hrest : ∀ t ∈ rest, 0 ≤ t.1 :=
      fun t ht => hw t (List.mem_cons_of_mem _ ht)
    have hsum0 : 0 ≤ (rest.map Prod.fst).sum :=
      List.sum_nonneg (by
        intro a ha
        obtain ⟨t, ht, rfl⟩ := List.mem_map.mp ha
        exact hrest t ht)
    simp only [List.map_cons, List.sum_cons] at hsum
    have hfit : x + w ≤ originX + W - 1 ∨ lh = 0 := Or.inl (by omega)
    have ihres := ih (x + w) y (max lh hh) hrest (by omega)
    simp only [claimPlaceAmended, if_pos hfit]
    constructor
    · intro p hp
      rcases List.mem_cons.mp hp with h | h
      · rw [h]
      · exact ihres.1 p h
    · simp only [List.map_cons]
      rw [List.chain'_cons]
      exact ⟨le_refl x, chain_le_head_mono (by omega) ihres.2⟩

/-- The wrap-guard invariant of the `_doLayout` loop, for items of
positive height: `lineHeight` is positive exactly when some already placed
item sits on the current row (same `y`), from any state satisfying the
invariant. -/
lemma loopTrace_guard_invariant (rect : QRect) :
    ∀ (sizes : List (Int × Int)) (x y lh : Int) (placed : List (Int × Int)),
      (∀ s ∈ sizes, 0 < s.2) →
      0 ≤ lh →
      (lh ≠ 0 ↔ ∃ p ∈ placed, p.2 = y) →
      (∀ p ∈ placed, p.2 ≤ y) →
      ∀ e ∈ loopTrace rect x y lh placed sizes,
        (0 < e.lineHeight ↔ ∃ p ∈ e.placed, p.2 = e.y) := by
  intro sizes
  induction sizes with
  | nil => intro x y lh placed _ _ _ _ e he; cases he
  | cons s rest ih =>
    intro x y lh placed hpos hlh hiff hle e he
    obtain ⟨w, hh⟩ := s
    have hh0 : 0 < hh := hpos (w, hh) (List.mem_cons_self _ _)
    have hrest : ∀ t ∈ rest, 0 < t.2 :=
      fun t ht => hpos t (List.mem_cons_of_mem _ ht)
    simp only [loopTrace] at he
    rcases List.mem_cons.mp he with h | h
    · subst h
      show 0 < lh ↔ ∃ p ∈ placed, p.2 = y
      constructor
      · intro h0
        exact hiff.mp (by omega)
      · intro hex
        have := hiff.mpr hex
        omega
    · by_cases hc : x + w > rect.right ∧ lh ≠ 0
      · simp only [layoutStep, if_pos hc] at h
        refine ih (rect.x + w) (y + lh) (max 0 hh)
          (placed ++ [(rect.x, y + lh)]) hrest (le_max_left 0 hh) ?_ ?_ e h
        · constructor
          · intro _
            exact ⟨(rect.x, y + lh), List.mem_append_right _ (List.mem_singleton_self _), rfl⟩
          · intro _
            omega
        · intro p hp
          rcases List.mem_append.mp hp with hp | hp
          · have := hle p hp
            omega
          · rw [List.mem_singleton.mp hp]
      · simp only [layoutStep, if_neg hc] at h
        refine ih (x + w) y (max lh hh) (placed ++ [(x, y)]) hrest
          (le_trans hlh (le_max_left lh hh)) ?_ ?_ e h
        · constructor
          · intro _
            exact ⟨(x, y), List.mem_append_right _ (List.mem_singleton_self _), rfl⟩
          · intro _
            omega
        · intro p hp
          rcases List.mem_append.mp hp with hp | hp
          · exact hle p hp
          · rw [List.mem_singleton.mp hp]

/-- `pyStrip` is left-drop followed by Mathlib's right-drop. -/
lemma pyStrip_eq_rdropWhile (l : List Char) :
    pyStrip l = List.rdropWhile pyIsSpace (l.dropWhile pyIsSpace) := rfl

/-- A non-empty strip-invariant label absorbs the newline appended by the
file writer: stripping the written line recovers the label. -/
lemma pyStrip_append_newline {t : List Char} (hne : t ≠ [])
    (h : pyStrip t = t) : pyStrip (t ++ ['\n']) = t := by
  have hdrop : t.dropWhile pyIsSpace = t := by
    have hsuf : t.dropWhile pyIsSpace <:+ t := List.dropWhile_suffix _
    have hpre : List.rdropWhile pyIsSpace (t.dropWhile pyIsSpace) <+:
        t.dropWhile pyIsSpace := List.rdropWhile_prefix _ _
    have hlen : t.length ≤ (t.dropWhile pyIsSpace).length := by
      have hp := hpre.length_le
      rw [pyStrip_eq_rdropWhile] at h
      rw [h] at hp
      exact hp
    exact hsuf.eq_of_length (le_antisymm hsuf.length_le hlen)
  have hrdrop : List.rdropWhile pyIsSpace t = t := by
    rw [pyStrip_eq_rdropWhile, hdrop] at h
    exact h
  obtain ⟨c, cs, rfl⟩ := List.exists_cons_of_ne_nil hne
  have hc : ¬(pyIsSpace c = true) := by
    have hhead := List.dropWhile_eq_self_iff.mp hdrop
    simpa using hhead (by simp)
  have hstep : pyStrip ((c :: cs) ++ ['\n']) =
      List.rdropWhile pyIsSpace ((c :: cs) ++ ['\n']) := by
    rw [pyStrip_eq_rdropWhile]
    congr 1
    rw [List.cons_append, List.dropWhile_cons, if_neg hc, ← List.cons_append]
  rw [hstep, List.rdropWhile_concat_pos _ _ _ (by decide), hrdrop]

/-- Splitting at newlines after appending a newline-free chunk and a
newline peels off exactly that chunk. -/
lemma splitNl_append_newline (s : List Char) :
    ∀ t : List Char, '\n' ∉ t → splitNl (t ++ '\n' :: s) = t :: splitNl s := by
  intro t
  induction t with
  | nil =>
    intro _
    simp [splitNl]
  | cons c cs ih =>
    intro hnin
    have hc : ¬(c = '\n') := fun hcEq => hnin (by rw [hcEq]; exact List.mem_cons_self _ _)
    have hcs : '\n' ∉ cs := fun hm => hnin (List.mem_cons_of_mem _ hm)
    simp only [List.cons_append, splitNl, if_neg hc, List.append_eq, ih hcs]

/-- Unfolding the writer over the first tag. -/
lemma writeTagsFile_cons (t : List Char) (rest : List (List Char)) :
    writeTagsFile (t :: rest) = t ++ '\n' :: writeTagsFile rest := by
  simp [writeTagsFile]

/-- The file written for carriage-return-free tags contains no carriage
return: the writer only adds line feeds. -/
lemma writeTagsFile_carriage_free :
    ∀ tags : List (List Char), (∀ t ∈ tags, '\r' ∉ t) →
      '\r' ∉ writeTagsFile tags := by
  intro tags
  induction tags with
  | nil =>
    intro _
    simp [writeTagsFile]
  | cons t rest ih =>
    intro h
    rw [writeTagsFile_cons]
    intro hmem
    rcases List.mem_append.mp hmem with hm | hm
    · exact h t (List.mem_cons_self _ _) hm
    · rcases List.mem_cons.mp hm with hm | hm
      · exact absurd hm (by decide)
      · exact ih (fun u hu => h u (List.mem_cons_of_mem _ hu)) hm

/-- The universal-newlines translation is the identity on text without
carriage returns. -/
lemma univNewlines_eq_self : ∀ {s : List Char}, '\r' ∉ s →
    univNewlines s = s := by
  intro s
  induction s with
  | nil => intro _; rfl
  | cons c cs ih =>
    intro h
    have hc : ¬(c = '\r') := fun hEq => h (by rw [hEq]; exact List.mem_cons_self _ _)
    have hcs : '\r' ∉ cs := fun hm => h (List.mem_cons_of_mem _ hm)
    cases cs with
    | nil => simp only [univNewlines, if_neg hc]
    | cons c2 cs' =>
      simp only [univNewlines, if_neg hc]
      rw [ih hcs]

/-- The file written for newline-free tags splits at newlines into the
tags followed by one empty trailing chunk. -/
lemma splitNl_writeTagsFile :
    ∀ tags : List (List Char), (∀ t ∈ tags, '\n' ∉ t) →
      splitNl (writeTagsFile tags) = tags ++ [[]] := by
  intro tags
  induction tags with
  | nil => intro _; rfl
  | cons t rest ih =>
    intro h
    have h1 : '\n' ∉ t := h t (List.mem_cons_self _ _)
    have h2 : ∀ u ∈ rest, '\n' ∉ u := fun u hu => h u (List.mem_cons_of_mem _ hu)
    rw [writeTagsFile_cons, splitNl_append_newline _ _ h1, ih h2,
      List.cons_append]

/-- The lines of the file written for tags free of line feeds and
carriage returns are exactly the tags, each with its trailing newline. -/
lemma fileLines_writeTagsFile (tags : List (List Char))
    (h : ∀ t ∈ tags, '\n' ∉ t ∧ '\r' ∉ t) :
    fileLines (writeTagsFile tags) = tags.map fun t => t ++ ['\n'] := by
  have hcr : '\r' ∉ writeTagsFile tags :=
    writeTagsFile_carriage_free tags fun t ht => (h t ht).2
  simp only [fileLines, univNewlines_eq_self hcr,
    splitNl_writeTagsFile tags fun t ht => (h t ht).1, List.dropLast_concat,
    List.getLast?_concat]
  simp

/-! ## Claims -/

/-- Claim C1, counterexample: with items `[(50,20),(50,20)]` in a container
of width `100` at origin `(0,0)`, the spec's rule keeps the second item on
the first row (`50 + 50` does not exceed `0 + 100`), but the code wraps it
(`50 + 50 > rect.right() = 99`): the committed positions differ from the
spec's placement rule. -/
theorem c1_counterexample :
    layoutPositions ⟨0, 0, 100, 0⟩ [(50, 20), (50, 20)] ≠
      claimPlace 0 100 0 0 0 [(50, 20), (50, 20)] := by decide

/-- Claim C1 (amended): `_doLayout` places each item at the current cursor
exactly when the running x-offset plus the item's width does not exceed
Qt's inclusive right edge `originX + W - 1`, or the current row is still
empty (`lineHeight = 0`); otherwise the item is placed at `x = originX` on
a new row whose y-offset is the previous row's y plus that row's line
height. -/
theorem c1_placement_rule_amended (rect : QRect) (sizes : List (Int × Int)) :
    layoutPositions rect sizes =
      claimPlaceAmended rect.x rect.w rect.x rect.y 0 sizes :=
  layoutPositions_eq_claimPlaceAmended rect sizes

/-- Claim C2, counterexample: for items `[(50,20),(60,20),(40,20)]` with
container width `100` and origin `(0,0)`, commit mode does not return
total height `40`: the third item also wraps (`60 + 40 = 100 > 99`), so
the height is `60`. -/
theorem c2_counterexample :
    layoutHeight ⟨0, 0, 100, 0⟩ false [(50, 20), (60, 20), (40, 20)] ≠ 40 := by
  decide

/-- Claim C2 (amended): for items `[(50,20),(60,20),(40,20)]` with
container width `100` and origin `(0,0)`, commit mode places item0 at
`(0,0)`, item1 at `(0,20)` (it wraps since `50 + 60 > 99`), item2 at
`(0,40)` (it wraps as well since `60 + 40 = 100 > 99`), and the returned
total height is `60`. -/
theorem c2_concrete_scenario_amended :
    layoutPositions ⟨0, 0, 100, 0⟩ [(50, 20), (60, 20), (40, 20)] =
      [(0, 0), (0, 20), (0, 40)] ∧
    layoutHeight ⟨0, 0, 100, 0⟩ false [(50, 20), (60, 20), (40, 20)] = 60 := by
  decide

/-- Claim C3, counterexample: the container width `100` is at least the
width of the widest item (`50`), yet with items `[(50,20),(50,20)]` the
second item is placed on a second row (its y-offset is not the origin's),
because `50 + 50 = 100 > rect.right() = 99`. -/
theorem c3_counterexample :
    (∀ s ∈ [((50 : Int), (20 : Int)), (50, 20)], s.1 ≤ 100) ∧
    ∃ p ∈ layoutPositions ⟨0, 0, 100, 0⟩ [(50, 20), (50, 20)], p.2 ≠ 0 := by
  decide

/-- Claim C3 (amended): for every item sequence with non-negative widths
whose total width is less than the container width, `_doLayout` places all
items on a single row (all y-offsets equal `originY`), in input order,
with non-decreasing x-offsets. -/
theorem c3_single_row_amended (x0 y0 W H : Int) (sizes : List (Int × Int))
    (hw : ∀ s ∈ sizes, 0 ≤ s.1)
    (hsum : (sizes.map Prod.fst).sum < W) :
    (∀ p ∈ layoutPositions ⟨x0, y0, W, H⟩ sizes, p.2 = y0) ∧
    List.Chain' (· ≤ ·)
      ((layoutPositions ⟨x0, y0, W, H⟩ sizes).map Prod.fst) := by
  rw [layoutPositions_eq_claimPlaceAmended]
  have hres := claimPlaceAmended_single_row x0 W sizes x0 y0 0 hw (by omega)
  exact ⟨hres.1, hres.2.tail⟩

/-- Claim C3 witness: two items of widths `30` and `40` in a container of
width `100` stay on one row with non-decreasing x-offsets. -/
theorem c3_single_row_witness :
    (∀ p ∈ layoutPositions ⟨0, 0, 100, 0⟩ [(30, 10), (40, 5)], p.2 = 0) ∧
    List.Chain' (· ≤ ·)
      ((layoutPositions ⟨0, 0, 100, 0⟩ [(30, 10), (40, 5)]).map Prod.fst) :=
  c3_single_row_amended 0 0 100 0 [(30, 10), (40, 5)] (by decide) (by decide)

/-- Claim C4: the total height `_doLayout` returns in measure mode
(`testOnly = true`) equals the one returned in commit mode
(`testOnly = false`) on the same inputs — the returned
`y + lineHeight - rect.y()` is independent of the `testOnly` flag. -/
theorem c4_height_independent_of_testOnly (rect : QRect)
    (items : List LayoutItem) :
    (doLayout rect true items).1 = (doLayout rect false items).1 :=
  doLayoutGo_fst_testOnly rect items rect.x rect.y 0

/-- Claim C5: a single item of non-negative height whose width exceeds the
container width is still placed unsplit and unshrunk at the row origin
`(rect.x(), rect.y())` (its committed geometry keeps its full size hint),
and the returned total height is the item's height. -/
theorem c5_oversized_item_kept_whole (x0 y0 W H w h : Int) (g : QRect)
    (h0 : 0 ≤ h) (hwide : W < w) :
    doLayout ⟨x0, y0, W, H⟩ false [⟨w, h, g⟩] =
      (h, [⟨w, h, ⟨x0, y0, w, h⟩⟩]) := by
  simp only [doLayout, doLayoutGo, layoutStep, QRect.right]
  simp [max_eq_right h0]

/-- Claim C5 witness: the spec's concrete scenario, one item `(200,30)`
with container width `100` and origin `(0,0)`. -/
theorem c5_oversized_item_witness :
    doLayout ⟨0, 0, 100, 0⟩ false [⟨200, 30, ⟨0, 0, 0, 0⟩⟩] =
      (30, [⟨200, 30, ⟨0, 0, 200, 30⟩⟩]) :=
  c5_oversized_item_kept_whole 0 0 100 0 200 30 ⟨0, 0, 0, 0⟩ (by decide)
    (by decide)

/-- Claim C6, counterexample: the item sizes `[(5,0),(60,20)]` are
non-negative, yet at the second iteration of the loop `lineHeight = 0`
(the first item's height is `0`) while an item has already been placed on
the current row — the wrap guard does not hold although the row is
non-empty. -/
theorem c6_counterexample :
    (∀ s ∈ [((5 : Int), (0 : Int)), (60, 20)], 0 ≤ s.1 ∧ 0 ≤ s.2) ∧
    ∃ e ∈ layoutTrace ⟨0, 0, 100, 0⟩ [(5, 0), (60, 20)],
      ¬(0 < e.lineHeight ↔ ∃ p ∈ e.placed, p.2 = e.y) := by decide

/-- Claim C6 (amended): for every item sequence with positive heights, at
each iteration of the `_doLayout` loop the wrap-guard condition
`lineHeight > 0` holds if and only if at least one item has already been
placed on the current row (a placed item whose y-offset equals the current
cursor's y). -/
theorem c6_wrap_guard_amended (rect : QRect) (sizes : List (Int × Int))
    (hpos : ∀ s ∈ sizes, 0 < s.2) :
    ∀ e ∈ layoutTrace rect sizes,
      (0 < e.lineHeight ↔ ∃ p ∈ e.placed, p.2 = e.y) :=
  loopTrace_guard_invariant rect sizes rect.x rect.y 0 [] hpos le_rfl
    (by simp) (by simp)

/-- Claim C6 witness: with items `[(50,20),(60,20)]` in a width-100
container, the state before the second iteration has `lineHeight = 20 > 0`
and the first item placed at `(0,0)` on the current row `y = 0`. -/
theorem c6_wrap_guard_witness :
    0 < (⟨50, 0, 20, [(0, 0)]⟩ : TraceEntry).lineHeight ↔
      ∃ p ∈ (⟨50, 0, 20, [(0, 0)]⟩ : TraceEntry).placed,
        p.2 = (⟨50, 0, 20, [(0, 0)]⟩ : TraceEntry).y :=
  c6_wrap_guard_amended ⟨0, 0, 100, 0⟩ [(50, 20), (60, 20)] (by decide)
    ⟨50, 0, 20, [(0, 0)]⟩ (by decide)

/-- Claim C7: in measure mode (`testOnly = true`) `_doLayout` leaves every
item untouched — no geometry is committed, only the height is computed. -/
theorem c7_measure_mode_no_mutation (rect : QRect)
    (items : List LayoutItem) :
    (doLayout rect true items).2 = items :=
  doLayoutGo_measure_snd rect items rect.x rect.y 0

/-- Claim C8, counterexample: the label `" a"` (leading space) is written
as the line `" a\n"` but read back stripped as `"a"`: the write-then-read
cycle does not reconstruct the same label list. -/
theorem c8_counterexample :
    readTags (writeTagsFile [[' ', 'a']]) ≠ [[' ', 'a']] := by decide

/-- Claim C8 (amended): writing the mirror file and reading it back
reconstructs exactly the same label list in the same order, provided every
label is non-empty, contains no line terminator (neither line feed nor
carriage return — text-mode reading splits lines at both), and carries no
leading or trailing whitespace in Python's Unicode sense (is invariant
under stripping); in general the reader strips each line and drops blank
lines wherever they occur, not only trailing ones. -/
theorem c8_roundtrip_amended (tags : List (List Char))
    (h : ∀ t ∈ tags, t ≠ [] ∧ '\n' ∉ t ∧ '\r' ∉ t ∧ pyStrip t = t) :
    readTags (writeTagsFile tags) = tags := by
  unfold readTags
  rw [fileLines_writeTagsFile tags
    fun t ht => ⟨(h t ht).2.1, (h t ht).2.2.1⟩, List.map_map]
  have hmap : ∀ t ∈ tags, (pyStrip ∘ fun u => u ++ ['\n']) t = id t :=
    fun t ht => pyStrip_append_newline (h t ht).1 (h t ht).2.2.2
  rw [List.map_congr_left hmap, List.map_id]
  refine List.filter_eq_self.mpr fun t ht => ?_
  have hne := (h t ht).1
  simp [List.isEmpty_iff, hne]

/-- Claim C8 witness: the clean labels `["a", "bc"]` survive the
write-then-read cycle unchanged. -/
theorem c8_roundtrip_witness :
    readTags (writeTagsFile [['a'], ['b', 'c']]) = [['a'], ['b', 'c']] :=
  c8_roundtrip_amended [['a'], ['b', 'c']] (by decide)

/-- Claim C9: when the mirror file is missing, or reading it raises, the
rebuild leaves the button set empty — the previous buttons are removed and
no new button is created, whatever the previous set and the error were. -/
theorem c9_read_failure_empty_buttons (prev : List (List Char))
    (e : String) :
    rebuildButtons prev FileOutcome.missing = [] ∧
    rebuildButtons prev (FileOutcome.readError e) = [] :=
  ⟨rfl, rfl⟩

/-- Claim C10: for an index outside `[0, count)` both `itemAt` and
`takeAt` return `None` (no out-of-range error) and `takeAt` leaves the
list unchanged; for an index in range `itemAt` returns the i-th item and
`takeAt` removes and returns it. -/
theorem c10_itemAt_takeAt_bounds {α : Type} (itemList : List α) (i : Int) :
    (¬(0 ≤ i ∧ i < itemList.length) ∧ itemAt itemList i = none ∧
        takeAt itemList i = (none, itemList)) ∨
    ((0 ≤ i ∧ i < itemList.length) ∧
      ∃ hlt : i.toNat < itemList.length,
        itemAt itemList i = some (itemList.get ⟨i.toNat, hlt⟩) ∧
        takeAt itemList i =
          (some (itemList.get ⟨i.toNat, hlt⟩), itemList.eraseIdx i.toNat)) := by
  by_cases hr : 0 ≤ i ∧ i < itemList.length
  · right
    refine ⟨hr, by omega, ?_, ?_⟩
    · simp only [itemAt, dif_pos hr]
    · simp only [takeAt, dif_pos hr]
  · left
    exact ⟨hr, by simp only [itemAt, dif_neg hr], by simp only [takeAt, dif_neg hr]⟩

end BrushTagSelector
